import Mathlib

/-!
# Verification of `sled-utils` (typed persistence facade over sled)

Shallow embedding of the repository's three source files:

* `src/types.rs`  — the `DbKey` capability and `DbTrees` partition names;
* `src/lib.rs`    — `Database`, `DbTree`, `DbBatch` and their operations;
* `src/config.rs` — `DbOpts` and its mapping onto `sled::Config`.

The sled engine itself is an external collaborator.  We model a
`sled::Tree` as an association list sorted by sled's native key order
(lexicographic byte order), a `sled::Batch` as the ordered sequence of
its pending insert operations, and the `sled::Db` as an association
list from tree names to trees.  Engine-level failures that the wrapper
merely forwards (iterator read errors, `drop_tree` errors) are
represented by explicit failure oracles, so the wrapper's handling of
them can be stated and proved.
-/

set_option linter.unusedVariables false

namespace SledUtils

/-- Raw byte strings (sled keys and values), a byte being a natural number. -/
abbrev Bytes := List Nat

/-- Strict lexicographic order on byte strings: sled's native key order. -/
def bytesLt : Bytes → Bytes → Bool
  | [], [] => false
  | [], _ :: _ => true
  | _ :: _, [] => false
  | a :: as, b :: bs => if a < b then true else if b < a then false else bytesLt as bs

theorem bytesLt_cons (a b : Nat) (as bs : Bytes) :
    bytesLt (a :: as) (b :: bs) = true ↔ a < b ∨ (a = b ∧ bytesLt as bs = true) := by
  simp only [bytesLt]
  by_cases hab : a < b
  · simp [hab]
  · by_cases hba : b < a
    · have hne : a ≠ b := by omega
      simp [hab, hba, hne]
    · have heq : a = b := by omega
      simp [hab, hba, heq]

theorem bytesLt_irrefl (a : Bytes) : bytesLt a a = false := by
  induction a with
  | nil => rfl
  | cons x xs ih => simp [bytesLt, Nat.lt_irrefl, ih]

theorem bytesLt_ne {a b : Bytes} (h : bytesLt a b = true) : a ≠ b := by
  intro he
  subst he
  rw [bytesLt_irrefl] at h
  exact Bool.noConfusion h

theorem bytesLt_antisymm :
    ∀ (a b : Bytes), bytesLt a b = false → bytesLt b a = false → a = b
  | [], [], _, _ => rfl
  | [], _ :: _, h, _ => by simp [bytesLt] at h
  | _ :: _, [], _, h => by simp [bytesLt] at h
  | a :: as, b :: bs, h1, h2 => by
    by_cases hab : a < b
    · simp [bytesLt, hab] at h1
    · by_cases hba : b < a
      · simp [bytesLt, hba] at h2
      · have heq : a = b := by omega
        subst heq
        simp only [bytesLt, Nat.lt_irrefl, if_false] at h1 h2
        rw [bytesLt_antisymm as bs h1 h2]

theorem bytesLt_trans :
    ∀ (a b c : Bytes), bytesLt a b = true → bytesLt b c = true → bytesLt a c = true
  | [], [], _, h, _ => by simp [bytesLt] at h
  | [], _ :: _, [], _, h => by simp [bytesLt] at h
  | [], _ :: _, _ :: _, _, _ => rfl
  | _ :: _, [], _, h, _ => by simp [bytesLt] at h
  | _ :: _, _ :: _, [], _, h => by simp [bytesLt] at h
  | a :: as, b :: bs, c :: cs, h1, h2 => by
    rw [bytesLt_cons] at h1 h2 ⊢
    rcases h1 with h1 | ⟨rfl, h1⟩
    · rcases h2 with h2 | ⟨rfl, h2⟩
      · exact Or.inl (Nat.lt_trans h1 h2)
      · exact Or.inl h1
    · rcases h2 with h2 | ⟨rfl, h2⟩
      · exact Or.inl h2
      · exact Or.inr ⟨rfl, bytesLt_trans as bs cs h1 h2⟩

/-- A `sled::Tree`: an association list of (key, value) pairs kept sorted
by strict key order. -/
abbrev Tree := List (Bytes × Bytes)

/-- `sled::Tree::get`: the value stored under a key, if any. -/
def treeGet (k : Bytes) : Tree → Option Bytes
  | [] => none
  | (k2, v2) :: rest => if k = k2 then some v2 else treeGet k rest

/-- `sled::Tree::insert`: ordered-map insert with overwrite semantics,
returning the previous value stored under the key together with the
updated tree. -/
def treeInsert (k v : Bytes) : Tree → Option Bytes × Tree
  | [] => (none, [(k, v)])
  | (k2, v2) :: rest =>
    if bytesLt k k2 then (none, (k, v) :: (k2, v2) :: rest)
    else if bytesLt k2 k then
      let r := treeInsert k v rest
      (r.1, (k2, v2) :: r.2)
    else (some v2, (k, v) :: rest)

/-- The tree invariant: keys strictly ascend along the list. -/
def TreeSorted (t : Tree) : Prop :=
  List.Pairwise (fun p q => bytesLt p.1 q.1 = true) t

theorem treeInsert_cons_lt {k k2 : Bytes} (v v2 : Bytes) (rest : Tree)
    (h : bytesLt k k2 = true) :
    treeInsert k v ((k2, v2) :: rest) = (none, (k, v) :: (k2, v2) :: rest) := by
  simp [treeInsert, h]

theorem treeInsert_cons_gt {k k2 : Bytes} (v v2 : Bytes) (rest : Tree)
    (h1 : bytesLt k k2 = false) (h2 : bytesLt k2 k = true) :
    treeInsert k v ((k2, v2) :: rest) =
      ((treeInsert k v rest).1, (k2, v2) :: (treeInsert k v rest).2) := by
  simp [treeInsert, h1, h2]

theorem treeInsert_cons_same {k k2 : Bytes} (v v2 : Bytes) (rest : Tree)
    (h1 : bytesLt k k2 = false) (h2 : bytesLt k2 k = false) :
    treeInsert k v ((k2, v2) :: rest) = (some v2, (k, v) :: rest) := by
  simp [treeInsert, h1, h2]

theorem treeInsert_mem (k v : Bytes) :
    ∀ (t : Tree) (p : Bytes × Bytes), p ∈ (treeInsert k v t).2 → p = (k, v) ∨ p ∈ t
  | [], p, hp => by
    simp [treeInsert] at hp
    exact Or.inl hp
  | (k2, v2) :: rest, p, hp => by
    cases h1 : bytesLt k k2 with
    | true =>
      rw [treeInsert_cons_lt v v2 rest h1] at hp
      rcases List.mem_cons.mp hp with h | h
      · exact Or.inl h
      · exact Or.inr h
    | false =>
      cases h2 : bytesLt k2 k with
      | true =>
        rw [treeInsert_cons_gt v v2 rest h1 h2] at hp
        rcases List.mem_cons.mp hp with h | h
        · exact Or.inr (by simp [h])
        · rcases treeInsert_mem k v rest p h with h3 | h3
          · exact Or.inl h3
          · exact Or.inr (by simp [h3])
      | false =>
        rw [treeInsert_cons_same v v2 rest h1 h2] at hp
        rcases List.mem_cons.mp hp with h | h
        · exact Or.inl h
        · exact Or.inr (by simp [h])

theorem treeInsert_sorted (k v : Bytes) :
    ∀ (t : Tree), TreeSorted t → TreeSorted (treeInsert k v t).2
  | [], _ => by simp [treeInsert, TreeSorted]
  | (k2, v2) :: rest, ht => by
    rw [TreeSorted, List.pairwise_cons] at ht
    obtain ⟨hub, hrest⟩ := ht
    cases h1 : bytesLt k k2 with
    | true =>
      rw [treeInsert_cons_lt v v2 rest h1]
      rw [TreeSorted, List.pairwise_cons]
      refine ⟨?_, ?_⟩
      · intro q hq
        rcases List.mem_cons.mp hq with h | h
        · subst h; exact h1
        · exact bytesLt_trans _ _ _ h1 (hub q h)
      · exact List.pairwise_cons.mpr ⟨hub, hrest⟩
    | false =>
      cases h2 : bytesLt k2 k with
      | true =>
        rw [treeInsert_cons_gt v v2 rest h1 h2]
        rw [TreeSorted, List.pairwise_cons]
        refine ⟨?_, treeInsert_sorted k v rest hrest⟩
        intro q hq
        rcases treeInsert_mem k v rest q hq with h | h
        · subst h; exact h2
        · exact hub q h
      | false =>
        have heq : k = k2 := bytesLt_antisymm k k2 h1 h2
        rw [treeInsert_cons_same v v2 rest h1 h2]
        rw [TreeSorted, List.pairwise_cons]
        refine ⟨?_, hrest⟩
        intro q hq
        rw [heq]
        exact hub q hq

theorem treeGet_none_of_forall_ne (k : Bytes) :
    ∀ (t : Tree), (∀ q ∈ t, k ≠ q.1) → treeGet k t = none
  | [], _ => rfl
  | (k2, v2) :: rest, h => by
    have hne : k ≠ k2 := h (k2, v2) (by simp)
    simp only [treeGet, hne, if_false]
    exact treeGet_none_of_forall_ne k rest (fun q hq => h q (by simp [hq]))

theorem treeGet_none_of_lt_all (k : Bytes) (k2 v2 : Bytes) (rest : Tree)
    (hs : TreeSorted ((k2, v2) :: rest)) (hlt : bytesLt k k2 = true) :
    treeGet k ((k2, v2) :: rest) = none := by
  rw [TreeSorted, List.pairwise_cons] at hs
  apply treeGet_none_of_forall_ne
  intro q hq
  rcases List.mem_cons.mp hq with h | h
  · subst h; exact bytesLt_ne hlt
  · exact bytesLt_ne (bytesLt_trans _ _ _ hlt (hs.1 q h))

theorem treeInsert_prev (k v : Bytes) :
    ∀ (t : Tree), TreeSorted t → (treeInsert k v t).1 = treeGet k t
  | [], _ => rfl
  | (k2, v2) :: rest, ht => by
    cases h1 : bytesLt k k2 with
    | true =>
      rw [treeInsert_cons_lt v v2 rest h1]
      exact (treeGet_none_of_lt_all k k2 v2 rest ht h1).symm
    | false =>
      cases h2 : bytesLt k2 k with
      | true =>
        have hne : k ≠ k2 := fun he => bytesLt_ne h2 he.symm
        rw [treeInsert_cons_gt v v2 rest h1 h2]
        rw [TreeSorted, List.pairwise_cons] at ht
        simp only [treeGet, hne, if_false]
        exact treeInsert_prev k v rest ht.2
      | false =>
        have heq : k = k2 := bytesLt_antisymm k k2 h1 h2
        rw [treeInsert_cons_same v v2 rest h1 h2]
        simp [treeGet, heq]

theorem treeGet_insert_self (k v : Bytes) :
    ∀ (t : Tree), treeGet k (treeInsert k v t).2 = some v
  | [] => by simp [treeInsert, treeGet]
  | (k2, v2) :: rest => by
    cases h1 : bytesLt k k2 with
    | true =>
      rw [treeInsert_cons_lt v v2 rest h1]
      simp [treeGet]
    | false =>
      cases h2 : bytesLt k2 k with
      | true =>
        have hne : k ≠ k2 := fun he => bytesLt_ne h2 he.symm
        rw [treeInsert_cons_gt v v2 rest h1 h2]
        simp only [treeGet, hne, if_false]
        exact treeGet_insert_self k v rest
      | false =>
        rw [treeInsert_cons_same v v2 rest h1 h2]
        simp [treeGet]

theorem treeInsert_length (k v : Bytes) :
    ∀ (t : Tree), TreeSorted t →
      (treeInsert k v t).2.length =
        if (treeGet k t).isSome then t.length else t.length + 1
  | [], _ => by simp [treeInsert, treeGet]
  | (k2, v2) :: rest, ht => by
    cases h1 : bytesLt k k2 with
    | true =>
      rw [treeGet_none_of_lt_all k k2 v2 rest ht h1]
      rw [treeInsert_cons_lt v v2 rest h1]
      simp
    | false =>
      cases h2 : bytesLt k2 k with
      | true =>
        have hne : k ≠ k2 := fun he => bytesLt_ne h2 he.symm
        rw [TreeSorted, List.pairwise_cons] at ht
        rw [treeInsert_cons_gt v v2 rest h1 h2]
        simp only [treeGet, hne, if_false, List.length_cons]
        rw [treeInsert_length k v rest ht.2]
        by_cases hg : (treeGet k rest).isSome = true <;> simp [hg]
      | false =>
        have heq : k = k2 := bytesLt_antisymm k k2 h1 h2
        rw [treeInsert_cons_same v v2 rest h1 h2]
        simp [treeGet, heq]

/-! ## Domain records: the `DbKey` capability and borsh serialization

`DbTree::insert` and `DbBatch::insert` are generic over
`T : BorshSerialize + DbKey` and use a record only through
`value.key()` (which may fail) and `borsh::to_vec(value)` (which may
fail).  A record is therefore embedded as the pair of those two
outcomes. -/

structure Record where
  keyResult : Except String Bytes
  serResult : Except String Bytes

/-- `DbBatch` (src/lib.rs): a wrapper around `sled::Batch` — modelled as
the ordered list of its pending (key, serialized value) insert
operations — plus a `count` field. -/
structure DbBatch where
  batch : List (Bytes × Bytes)
  count : Nat

/-- `DbBatch::new` (and the derived `Default`): empty pending set, count 0. -/
def DbBatch.new : DbBatch := ⟨[], 0⟩

/-- `DbBatch::insert`: derives the key (`value.key()?`), serializes the
value, and only then appends the pair to the inner batch and increments
`count`; on either failure the early return leaves the batch unchanged. -/
def DbBatch.insert (b : DbBatch) (r : Record) : Except String Unit × DbBatch :=
  match r.keyResult with
  | Except.error e => (Except.error e, b)
  | Except.ok k =>
    match r.serResult with
    | Except.error e => (Except.error ("failed to insert entry into batch " ++ e), b)
    | Except.ok data => (Except.ok (), ⟨b.batch ++ [(k, data)], b.count + 1⟩)

/-- `DbBatch::take_inner`: `std::mem::take(&mut self.batch)` — returns the
pending operations and leaves the inner batch at its default (empty)
value.  The `count` field is not touched. -/
def DbBatch.take_inner (b : DbBatch) : List (Bytes × Bytes) × DbBatch :=
  (b.batch, ⟨[], b.count⟩)

/-- `sled::Tree::apply_batch`: the batch's pending inserts are applied to
the tree in order (atomically, as one engine operation). -/
def applyOps : Tree → List (Bytes × Bytes) → Tree
  | t, [] => t
  | t, (k, v) :: rest => applyOps (treeInsert k v t).2 rest

/-- `DbTree::apply_batch`: applies `batch.take_inner()` to the tree,
returning the updated tree together with the batch as `take_inner`
left it. -/
def DbTree.apply_batch (t : Tree) (b : DbBatch) : Tree × DbBatch :=
  let r := b.take_inner
  (applyOps t r.1, r.2)

/-- `DbTree::insert`: `self.tree.insert(value.key()?, borsh::to_vec(value)?)`.
Key derivation and serialization both happen before the tree write; on
either failure the error is returned and the tree is unchanged.  On
success the previous value under the derived key is returned. -/
def DbTree.insert (t : Tree) (r : Record) : Except String (Option Bytes) × Tree :=
  match r.keyResult with
  | Except.error e => (Except.error e, t)
  | Except.ok k =>
    match r.serResult with
    | Except.error e => (Except.error ("failed to insert entry " ++ e), t)
    | Except.ok data =>
      let r2 := treeInsert k data t
      (Except.ok r2.1, r2.2)

/-- `DbTree::get`: a raw read; absence of a value is the normal result
`Except.ok none`, never an error. -/
def DbTree.get (t : Tree) (k : Bytes) : Except String (Option Bytes) :=
  Except.ok (treeGet k t)

/-- `DbTree::len`. -/
def DbTree.len (t : Tree) : Nat := t.length

/-- `DbTree::deserialize`: fetches via `get` and decodes as type `T`
(`borsh try_from_slice`, embedded as a partial decoding function);
errors when no value exists for the key or when decoding fails. -/
def DbTree.deserialize {T : Type} (t : Tree) (k : Bytes) (decode : Bytes → Option T) :
    Except String T :=
  match DbTree.get t k with
  | Except.error e => Except.error e
  | Except.ok none => Except.error "value for key is None"
  | Except.ok (some v) =>
    match decode v with
    | some x => Except.ok x
    | none => Except.error "failed to deserialize value"

/-! ## The `Database` wrapper around `sled::Db` -/

/-- The reserved sled default tree name (`b"__sled__default"` in
`Database::destroy`); tree names reaching sled come from
`DbTrees::Custom(&str)`, so names are modelled as strings. -/
def SLED_DEFAULT : String := "__sled__default"

/-- `sled::Db`: the named trees it holds. -/
structure Database where
  trees : List (String × Tree)

/-- Name lookup among the database's trees. -/
def dbLookup (n : String) : List (String × Tree) → Option Tree
  | [] => none
  | (n2, t) :: rest => if n = n2 then some t else dbLookup n rest

/-- `DbTree::open` / `Database::open_tree`: `sled::Db::open_tree` opens the
named tree, creating it (empty) if absent. -/
def Database.open_tree (db : Database) (n : String) : Tree × Database :=
  match dbLookup n db.trees with
  | some t => (t, db)
  | none => ([], ⟨db.trees ++ [(n, [])]⟩)

/-- `Database::list_values`: opens the tree, iterates it, and keeps the
`Ok` entries (`filter_map` drops entries the engine iterator fails to
read); `readFails` is the oracle for those engine-level read failures. -/
def Database.list_values (db : Database) (n : String) (readFails : Bytes × Bytes → Bool) :
    List (Bytes × Bytes) × Database :=
  let r := db.open_tree n
  (r.1.filter (fun e => !readFails e), r.2)

/-- `Database::destroy`: for every tree name other than `__sled__default`,
`drop_tree` is attempted; a failure (oracle `dropFails`) is logged and
the tree kept, and iteration continues with the remaining trees.  The
function always returns normally. -/
def Database.destroy (db : Database) (dropFails : String → Bool) : Database :=
  ⟨db.trees.filter (fun nt => nt.1 == SLED_DEFAULT || dropFails nt.1)⟩

/-- Well-formedness of the modelled database: every tree is sorted, as
sled's trees are. -/
def DbWF (db : Database) : Prop := ∀ nt ∈ db.trees, TreeSorted nt.2

/-! ## Configuration mapping (src/config.rs) -/

inductive SledMode where
  | LowSpace
  | HighThroughput
  deriving DecidableEq

/-- `DbMode` (src/config.rs). -/
inductive DbMode where
  | LowSpace
  | Fast
  deriving DecidableEq

/-- `impl Default for DbMode`: `Fast`.  (Unused by the mapping: `DbOpts`
holds an `Option<DbMode>`, whose own default is `None`.) -/
def DbMode.defaultMode : DbMode := DbMode.Fast

/-- `impl Into<sled::Mode> for DbMode`. -/
def DbMode.intoSled : DbMode → SledMode
  | DbMode.LowSpace => SledMode.LowSpace
  | DbMode.Fast => SledMode.HighThroughput

/-- `DbOpts` (src/config.rs). -/
structure DbOpts where
  compression_factor : Option Int
  debug : Bool
  mode : Option DbMode
  path : String
  system_page_cache : Option Nat

/-- The state of a `sled::Config` as far as the mapping touches it: each
field records what the builder calls set, `none` meaning the mapping
left the engine's own default in place. -/
structure SledConfig where
  path : Option String
  cacheCapacity : Option Nat
  useCompression : Option Bool
  compressionFactor : Option Int
  mode : Option SledMode
  printProfileOnDrop : Option Bool
  deriving DecidableEq

/-- `sled::Config::new()`: nothing set by the mapping yet. -/
def SledConfig.new : SledConfig := ⟨none, none, none, none, none, none⟩

/-- `impl Into<sled::Config> for &DbOpts`: sets the path; the cache
capacity if `system_page_cache` is set; compression on with the given
factor if `compression_factor` is set; the mode only if `mode` is set;
and profile printing if `debug`. -/
def DbOpts.intoSledConfig (o : DbOpts) : SledConfig :=
  let c := SledConfig.new
  let c := { c with path := some o.path }
  let c :=
    match o.system_page_cache with
    | some cache => { c with cacheCapacity := some cache }
    | none => c
  let c :=
    match o.compression_factor with
    | some f => { c with useCompression := some true, compressionFactor := some f }
    | none => c
  let c :=
    match o.mode with
    | some m => { c with mode := some m.intoSled }
    | none => c
  if o.debug then { c with printProfileOnDrop := some true } else c

/-- `impl Default for DbOpts`: note `mode: Default::default()` is the
default of `Option<DbMode>`, which is `None` (not `Some(Fast)`). -/
def DbOpts.defaultOpts : DbOpts :=
  { path := "test_infos.db"
    system_page_cache := none
    compression_factor := none
    mode := none
    debug := false }

/-! ## Batch operation sequences

A client-side history of one `DbBatch` instance: inserts of records and
applications to trees, starting from `DbBatch::new()`. -/

inductive BatchOp where
  | ins (r : Record)
  | applyTo (t : Tree)

/-- Runs a history of operations against a batch, the way client code
does: a failed insert leaves the caller holding the unchanged batch. -/
def runBatch : DbBatch → List BatchOp → DbBatch
  | b, [] => b
  | b, BatchOp.ins r :: rest => runBatch (DbBatch.insert b r).2 rest
  | b, BatchOp.applyTo t :: rest => runBatch (DbTree.apply_batch t b).2 rest

/-- Whether an operation is an insert that succeeds (key derivation and
serialization both succeed; success does not depend on batch state). -/
def insOk : BatchOp → Bool
  | BatchOp.ins r =>
    (match r.keyResult with | Except.ok _ => true | Except.error _ => false)
      && (match r.serResult with | Except.ok _ => true | Except.error _ => false)
  | BatchOp.applyTo _ => false

theorem runBatch_count (b : DbBatch) :
    ∀ (ops : List BatchOp), (runBatch b ops).count = b.count + (ops.filter insOk).length := by
  intro ops
  induction ops generalizing b with
  | nil => simp [runBatch]
  | cons op rest ih =>
    cases op with
    | ins r =>
      cases hk : r.keyResult with
      | error e =>
        simp only [runBatch, DbBatch.insert, hk]
        rw [ih b]
        simp [insOk, hk]
      | ok k =>
        cases hs : r.serResult with
        | error e =>
          simp only [runBatch, DbBatch.insert, hk, hs]
          rw [ih b]
          simp [insOk, hk, hs]
        | ok data =>
          simp only [runBatch, DbBatch.insert, hk, hs]
          rw [ih ⟨b.batch ++ [(k, data)], b.count + 1⟩]
          simp [insOk, hk, hs]
          omega
    | applyTo t =>
      simp only [runBatch, DbTree.apply_batch, DbBatch.take_inner]
      rw [ih ⟨[], b.count⟩]
      simp [insOk]

/-! ## Database lookup lemmas -/

theorem dbLookup_mem (n : String) :
    ∀ (l : List (String × Tree)) (t : Tree), dbLookup n l = some t → (n, t) ∈ l
  | [], t, h => by simp [dbLookup] at h
  | (n2, t2) :: rest, t, h => by
    by_cases hn : n = n2
    · subst hn
      simp [dbLookup] at h
      subst h
      simp
    · simp only [dbLookup, if_neg hn] at h
      exact List.mem_cons_of_mem _ (dbLookup_mem n rest t h)

theorem dbLookup_filter_none (p : String × Tree → Bool) (n : String)
    (hp : ∀ t, p (n, t) = false) :
    ∀ (l : List (String × Tree)), dbLookup n (l.filter p) = none
  | [] => rfl
  | (n2, t2) :: rest => by
    by_cases hn : n = n2
    · subst hn
      rw [List.filter_cons, hp t2]
      simp only [Bool.false_eq_true, if_false]
      exact dbLookup_filter_none p n hp rest
    · rw [List.filter_cons]
      cases hpt : p (n2, t2) with
      | true =>
        simp only [if_pos rfl, dbLookup, if_neg hn]
        exact dbLookup_filter_none p n hp rest
      | false =>
        simp only [Bool.false_eq_true, if_false]
        exact dbLookup_filter_none p n hp rest

theorem dbLookup_filter_same (p : String × Tree → Bool) (n : String)
    (hp : ∀ t, p (n, t) = true) :
    ∀ (l : List (String × Tree)), dbLookup n (l.filter p) = dbLookup n l
  | [] => rfl
  | (n2, t2) :: rest => by
    by_cases hn : n = n2
    · subst hn
      rw [List.filter_cons, hp t2]
      simp only [if_pos rfl, dbLookup]
      simp
    · rw [List.filter_cons]
      cases hpt : p (n2, t2) with
      | true =>
        simp only [if_pos rfl, dbLookup, if_neg hn]
        exact dbLookup_filter_same p n hp rest
      | false =>
        simp only [Bool.false_eq_true, if_false, dbLookup, if_neg hn]
        exact dbLookup_filter_same p n hp rest

/-- The tree handed out by `open_tree` on a well-formed database is
sorted. -/
theorem open_tree_sorted (db : Database) (n : String) (h : DbWF db) :
    TreeSorted (db.open_tree n).1 := by
  unfold Database.open_tree
  cases hl : dbLookup n db.trees with
  | none => exact List.Pairwise.nil
  | some t => exact h (n, t) (dbLookup_mem n db.trees t hl)

/-! ## Claim theorems -/

/-- C1, counterexample: a fresh batch receives one successful insert and
is then successfully applied to an (empty) tree; afterwards `count()` is
`1`, not `0` — `take_inner` resets only the inner batch, never `count`. -/
theorem batch_count_after_apply_not_zero :
    ((DbTree.apply_batch []
        (DbBatch.insert DbBatch.new ⟨Except.ok [1], Except.ok [2]⟩).2).2).count ≠ 0 := by
  decide

/-- C1, amended: for every history of operations on a batch created by
`new()`, `count()` equals the number of successful insert calls made
since the batch's creation — application to a partition does not reset
the count — while each application does reset the pending write-set to
that of a freshly created batch. -/
theorem batch_count_counts_all_inserts_since_creation (ops : List BatchOp) :
    (runBatch DbBatch.new ops).count = (ops.filter insOk).length ∧
    ∀ t, ((DbTree.apply_batch t (runBatch DbBatch.new ops)).2).batch = DbBatch.new.batch := by
  refine ⟨?_, fun t => rfl⟩
  rw [runBatch_count]
  simp [DbBatch.new]

/-- C2: `apply_batch` transfers the batch's pending content into the
partition (the new tree is exactly the old tree with the pending
operations applied) and leaves the batch's pending set empty, so a
second application of the same instance without intervening inserts
changes no stored entries and returns normally (the operation is total
in the model: emptiness is never an error). -/
theorem apply_batch_transfers_and_clears (t : Tree) (b : DbBatch) :
    (DbTree.apply_batch t b).1 = applyOps t b.batch ∧
    ((DbTree.apply_batch t b).2).batch = [] ∧
    (DbTree.apply_batch (DbTree.apply_batch t b).1 (DbTree.apply_batch t b).2).1
      = (DbTree.apply_batch t b).1 :=
  ⟨rfl, rfl, rfl⟩

/-- C3: with no drop failures, `destroy()` removes every partition whose
name differs from the reserved `__sled__default` (its contents are gone:
re-opening it yields length 0) and never the reserved default, whose
stored contents are unchanged. -/
theorem destroy_removes_all_but_default (db : Database) (n : String)
    (h : n ≠ SLED_DEFAULT) :
    ((db.destroy (fun _ => false)).open_tree n).1.length = 0 ∧
    dbLookup SLED_DEFAULT (db.destroy (fun _ => false)).trees
      = dbLookup SLED_DEFAULT db.trees := by
  constructor
  · have hl : dbLookup n (db.destroy (fun _ => false)).trees = none := by
      simp only [Database.destroy]
      apply dbLookup_filter_none
      intro t
      simp [h]
    simp [Database.open_tree, hl]
  · simp only [Database.destroy]
    apply dbLookup_filter_same
    intro t
    simp

/-- C3 witness: a concrete database holding the default tree and one
custom tree. -/
theorem destroy_removes_all_but_default_witness :
    (((Database.mk [(SLED_DEFAULT, [([5], [6])]), ("foo", [([1], [2])])]).destroy
        (fun _ => false)).open_tree "foo").1.length = 0 ∧
    dbLookup SLED_DEFAULT
        ((Database.mk [(SLED_DEFAULT, [([5], [6])]), ("foo", [([1], [2])])]).destroy
          (fun _ => false)).trees
      = dbLookup SLED_DEFAULT
          (Database.mk [(SLED_DEFAULT, [([5], [6])]), ("foo", [([1], [2])])]).trees :=
  destroy_removes_all_but_default
    (Database.mk [(SLED_DEFAULT, [([5], [6])]), ("foo", [([1], [2])])]) "foo" (by decide)

/-- C7: `destroy()` is total (it never returns an error) and is
best-effort per partition: a non-reserved partition whose drop does not
fail is removed no matter which other partitions' drops fail, while a
partition whose drop fails is skipped — left exactly as it was. -/
theorem destroy_best_effort_skips_failures (db : Database) (dropFails : String → Bool)
    (n : String) (h : n ≠ SLED_DEFAULT) :
    (dropFails n = false → dbLookup n (db.destroy dropFails).trees = none) ∧
    (dropFails n = true → dbLookup n (db.destroy dropFails).trees = dbLookup n db.trees) := by
  constructor
  · intro hf
    simp only [Database.destroy]
    apply dbLookup_filter_none
    intro t
    simp [h, hf]
  · intro hf
    simp only [Database.destroy]
    apply dbLookup_filter_same
    intro t
    simp [hf]

/-- C7 witness: tree `a`'s drop fails yet tree `b` (listed after it) is
still removed, and `a` is kept unchanged. -/
theorem destroy_best_effort_skips_failures_witness :
    ((fun s => s == "a") "b" = false →
      dbLookup "b"
        ((Database.mk [(SLED_DEFAULT, []), ("a", [([1], [2])]), ("b", [([3], [4])])]).destroy
          (fun s => s == "a")).trees = none) ∧
    ((fun s => s == "a") "b" = true →
      dbLookup "b"
        ((Database.mk [(SLED_DEFAULT, []), ("a", [([1], [2])]), ("b", [([3], [4])])]).destroy
          (fun s => s == "a")).trees
        = dbLookup "b"
            (Database.mk [(SLED_DEFAULT, []), ("a", [([1], [2])]), ("b", [([3], [4])])]).trees) :=
  destroy_best_effort_skips_failures
    (Database.mk [(SLED_DEFAULT, []), ("a", [([1], [2])]), ("b", [([3], [4])])])
    (fun s => s == "a") "b" (by decide)

/-- C10: listing a partition name that has never been written succeeds
and returns the empty sequence: `list_values` opens (creating empty if
absent) the named partition before iterating it. -/
theorem list_values_unwritten_name_empty (db : Database) (n : String)
    (readFails : Bytes × Bytes → Bool) (h : dbLookup n db.trees = none) :
    (db.list_values n readFails).1 = [] := by
  simp [Database.list_values, Database.open_tree, h]

/-- C10 witness: an empty database and a never-written name. -/
theorem list_values_unwritten_name_empty_witness :
    ((Database.mk []).list_values "nope" (fun _ => false)).1 = [] :=
  list_values_unwritten_name_empty (Database.mk []) "nope" (fun _ => false) rfl

/-- C6: typed `deserialize` errors both when no value exists under the
key and when the stored bytes do not decode as the requested type,
whereas raw `get` reports absence as the normal result `Ok(None)`, not
an error; when a value exists and decodes, `deserialize` returns it. -/
theorem deserialize_errors_get_none {T : Type} (t : Tree) (k : Bytes)
    (decode : Bytes → Option T) :
    (treeGet k t = none →
      (∃ e, DbTree.deserialize t k decode = Except.error e) ∧
        DbTree.get t k = Except.ok none) ∧
    (∀ v, treeGet k t = some v → decode v = none →
      ∃ e, DbTree.deserialize t k decode = Except.error e) ∧
    (∀ v x, treeGet k t = some v → decode v = some x →
      DbTree.deserialize t k decode = Except.ok x) := by
  refine ⟨?_, ?_, ?_⟩
  · intro h
    exact ⟨⟨"value for key is None", by simp [DbTree.deserialize, DbTree.get, h]⟩,
      by simp [DbTree.get, h]⟩
  · intro v hv hd
    exact ⟨"failed to deserialize value", by simp [DbTree.deserialize, DbTree.get, hv, hd]⟩
  · intro v x hv hd
    simp [DbTree.deserialize, DbTree.get, hv, hd]

/-- C6 witness: a stored entry that decodes, evaluated concretely. -/
theorem deserialize_errors_get_none_witness :
    DbTree.deserialize [([1], [2])] [1] (fun _ => some (5 : Nat)) = Except.ok 5 :=
  (deserialize_errors_get_none [([1], [2])] [1] (fun _ => some (5 : Nat))).2.2 [2] 5 rfl rfl

/-- C8: when a record's key derivation or serialization fails, both
`DbTree::insert` and `DbBatch::insert` return the error before any write
is attempted: the partition's stored entries are unchanged and the
batch's pending set and count are unchanged. -/
theorem insert_failure_leaves_state_unchanged (t : Tree) (b : DbBatch) (r : Record)
    (h : (∃ e, r.keyResult = Except.error e) ∨ (∃ e, r.serResult = Except.error e)) :
    (∃ e2, (DbTree.insert t r).1 = Except.error e2) ∧
    (DbTree.insert t r).2 = t ∧
    (∃ e2, (DbBatch.insert b r).1 = Except.error e2) ∧
    (DbBatch.insert b r).2 = b := by
  rcases h with ⟨e, he⟩ | ⟨e, he⟩
  · refine ⟨⟨e, ?_⟩, ?_, ⟨e, ?_⟩, ?_⟩ <;> simp [DbTree.insert, DbBatch.insert, he]
  · cases hk : r.keyResult with
    | error e2 =>
      refine ⟨⟨e2, ?_⟩, ?_, ⟨e2, ?_⟩, ?_⟩ <;> simp [DbTree.insert, DbBatch.insert, hk]
    | ok k =>
      refine ⟨⟨"failed to insert entry " ++ e, ?_⟩, ?_,
        ⟨"failed to insert entry into batch " ++ e, ?_⟩, ?_⟩ <;>
          simp [DbTree.insert, DbBatch.insert, hk, he]

/-- C8 witness: a record whose key derivation fails, against a concrete
tree and batch. -/
theorem insert_failure_leaves_state_unchanged_witness :
    (∃ e2, (DbTree.insert [([3], [4])] ⟨Except.error "missing key", Except.ok [1]⟩).1
      = Except.error e2) ∧
    (DbTree.insert [([3], [4])] ⟨Except.error "missing key", Except.ok [1]⟩).2 = [([3], [4])] ∧
    (∃ e2, (DbBatch.insert DbBatch.new ⟨Except.error "missing key", Except.ok [1]⟩).1
      = Except.error e2) ∧
    (DbBatch.insert DbBatch.new ⟨Except.error "missing key", Except.ok [1]⟩).2 = DbBatch.new :=
  insert_failure_leaves_state_unchanged [([3], [4])] DbBatch.new
    ⟨Except.error "missing key", Except.ok [1]⟩ (Or.inl ⟨"missing key", rfl⟩)

/-- C9, counterexample: with the default options (`mode` unspecified,
i.e. `None`), the mapping never calls `.mode(...)` on the engine
configuration — the resulting mode is left unset, not set to the
high-throughput (`Fast`) mode the claim asserts. -/
theorem config_unspecified_mode_not_set :
    (DbOpts.intoSledConfig DbOpts.defaultOpts).mode = none ∧
    (DbOpts.intoSledConfig DbOpts.defaultOpts).mode ≠ some SledMode.HighThroughput := by
  constructor <;> decide

/-- C9, amended: the mapping enables compression with the given factor
exactly when `compression_factor` is present; it maps `LowSpace` to the
engine's low-space mode and `Fast` to the engine's high-throughput mode
when a mode is specified, and leaves the engine configuration's mode
untouched (engine default) when the optional mode is unspecified. -/
theorem config_mapping_amended (o : DbOpts) :
    (∀ f, o.compression_factor = some f →
      (o.intoSledConfig).useCompression = some true ∧
        (o.intoSledConfig).compressionFactor = some f) ∧
    (o.compression_factor = none →
      (o.intoSledConfig).useCompression = none ∧
        (o.intoSledConfig).compressionFactor = none) ∧
    (o.mode = none → (o.intoSledConfig).mode = none) ∧
    (o.mode = some DbMode.LowSpace → (o.intoSledConfig).mode = some SledMode.LowSpace) ∧
    (o.mode = some DbMode.Fast → (o.intoSledConfig).mode = some SledMode.HighThroughput) := by
  obtain ⟨cf, dbg, md, p, spc⟩ := o
  cases cf <;> cases spc <;> cases dbg <;> rcases md with _ | m <;> try cases m
  all_goals simp [DbOpts.intoSledConfig, SledConfig.new, DbMode.intoSled]

/-- C9 witness: compression factor 5 with mode `LowSpace`. -/
theorem config_mapping_amended_witness :
    ((DbOpts.mk (some 5) false (some DbMode.LowSpace) "p" none).intoSledConfig).useCompression
      = some true ∧
    ((DbOpts.mk (some 5) false (some DbMode.LowSpace) "p" none).intoSledConfig).compressionFactor
      = some 5 :=
  (config_mapping_amended (DbOpts.mk (some 5) false (some DbMode.LowSpace) "p" none)).1 5 rfl

/-- C4: on a sorted partition, inserting a record derives its key,
serializes it, writes with overwrite semantics and returns the previous
raw value under that key; a second record deriving the same key gets the
first record's value back as the previous value, its own value becomes
the stored one, and the partition's length does not increase. -/
theorem insert_overwrite_same_key (t : Tree) (ht : TreeSorted t) (r1 r2 : Record)
    (k d1 d2 : Bytes)
    (h1k : r1.keyResult = Except.ok k) (h1s : r1.serResult = Except.ok d1)
    (h2k : r2.keyResult = Except.ok k) (h2s : r2.serResult = Except.ok d2) :
    (DbTree.insert t r1).1 = Except.ok (treeGet k t) ∧
    (DbTree.insert (DbTree.insert t r1).2 r2).1 = Except.ok (some d1) ∧
    treeGet k (DbTree.insert (DbTree.insert t r1).2 r2).2 = some d2 ∧
    ((DbTree.insert (DbTree.insert t r1).2 r2).2).length
      = ((DbTree.insert t r1).2).length := by
  have ht1 : TreeSorted (treeInsert k d1 t).2 := treeInsert_sorted k d1 t ht
  simp only [DbTree.insert, h1k, h1s, h2k, h2s]
  refine ⟨?_, ?_, ?_, ?_⟩
  · rw [treeInsert_prev k d1 t ht]
  · rw [treeInsert_prev k d2 _ ht1, treeGet_insert_self k d1 t]
  · rw [treeGet_insert_self]
  · rw [treeInsert_length k d2 _ ht1, treeGet_insert_self k d1 t]
    simp

/-- C4 witness: two records deriving key `[3]` inserted into the empty
partition. -/
theorem insert_overwrite_same_key_witness :
    (DbTree.insert [] ⟨Except.ok [3], Except.ok [7]⟩).1 = Except.ok (treeGet [3] []) ∧
    (DbTree.insert (DbTree.insert [] ⟨Except.ok [3], Except.ok [7]⟩).2
        ⟨Except.ok [3], Except.ok [9]⟩).1 = Except.ok (some [7]) ∧
    treeGet [3] (DbTree.insert (DbTree.insert [] ⟨Except.ok [3], Except.ok [7]⟩).2
        ⟨Except.ok [3], Except.ok [9]⟩).2 = some [9] ∧
    ((DbTree.insert (DbTree.insert [] ⟨Except.ok [3], Except.ok [7]⟩).2
        ⟨Except.ok [3], Except.ok [9]⟩).2).length
      = ((DbTree.insert [] ⟨Except.ok [3], Except.ok [7]⟩).2).length :=
  insert_overwrite_same_key [] (by simp [TreeSorted]) ⟨Except.ok [3], Except.ok [7]⟩
    ⟨Except.ok [3], Except.ok [9]⟩ [3] [7] [9] rfl rfl rfl rfl

/-- C5: on a well-formed database, `list_values` returns the partition's
entries as (raw key, raw value) pairs in strictly ascending key-byte
order, and an entry the engine iterator fails to read is silently
omitted from the result (every other entry is present) rather than
surfaced as an error — the operation returns normally. -/
theorem list_values_sorted_and_skips_failing (db : Database) (n : String)
    (readFails : Bytes × Bytes → Bool) (h : DbWF db) :
    List.Pairwise (fun p q => bytesLt p.1 q.1 = true) (db.list_values n readFails).1 ∧
    ∀ e, e ∈ (db.open_tree n).1 →
      (e ∈ (db.list_values n readFails).1 ↔ readFails e = false) := by
  have hs : TreeSorted (db.open_tree n).1 := open_tree_sorted db n h
  have hlv : (db.list_values n readFails).1
      = ((db.open_tree n).1).filter (fun e => !readFails e) := rfl
  constructor
  · rw [hlv]
    exact List.Pairwise.sublist (List.filter_sublist _) hs
  · intro e he
    rw [hlv]
    constructor
    · intro hin
      have hm := List.mem_filter.mp hin
      simpa using hm.2
    · intro hf
      exact List.mem_filter.mpr ⟨he, by simp [hf]⟩

/-- C5 witness: a database with one partition of two sorted entries, the
first of which fails to read. -/
theorem list_values_sorted_and_skips_failing_witness :
    List.Pairwise (fun p q => bytesLt p.1 q.1 = true)
      ((Database.mk [("foo", [([1], [2]), ([3], [4])])]).list_values "foo"
        (fun e => e.1 == [1])).1 ∧
    ∀ e, e ∈ ((Database.mk [("foo", [([1], [2]), ([3], [4])])]).open_tree "foo").1 →
      (e ∈ ((Database.mk [("foo", [([1], [2]), ([3], [4])])]).list_values "foo"
          (fun e => e.1 == [1])).1 ↔ (fun (e : Bytes × Bytes) => e.1 == [1]) e = false) :=
  list_values_sorted_and_skips_failing (Database.mk [("foo", [([1], [2]), ([3], [4])])])
    "foo" (fun e => e.1 == [1])
    (by
      intro nt hnt
      simp only [List.mem_singleton] at hnt
      subst hnt
      simp [TreeSorted, bytesLt])

end SledUtils
